import Mathlib

/-!
# Verification of the NeoFOAM term-algebra and field-operation core

Shallow embedding of the NeoFOAM sources:
* `src/unnamed/part_001` — parallel field algorithms (`fill`, `setField`,
  `add`, `sub`, `mul`, `equal`);
* `src/include/NeoFOAM/dsl/expression.hpp` — the `Expression` term algebra;
* `src/include/NeoFOAM/core/registerClass.hpp` — the runtime class registry.

The C++ `scalar` type (a hardware floating-point type) is modelled by exact
rationals `ℚ`; buffers are Lean lists; a `parallelFor` dispatch that writes
every index of a range exactly once and returns only after all writes
complete is modelled by the corresponding total function on lists.
-/

namespace NeoFOAM

/-- The executor capability token: identifies where a dispatch runs.
Modelled as a closed enumeration (serial host, threaded host, device);
the claims never depend on which backend is chosen, only on the token
being carried around unchanged. -/
inductive Executor where
  | serialExec : Executor
  | cpuExec : Executor
  | gpuExec : Executor
deriving DecidableEq, Repr

/-- The C++ `scalar` typedef (`float`/`double`), modelled by exact rationals. -/
abbrev scalar : Type := ℚ

/-- Embeds `Field<T>`: an executor-resident contiguous buffer of `size` elements.
`data` is the buffer contents, `exec` the owning executor. -/
structure Field (T : Type) where
  exec : Executor
  data : List T
deriving DecidableEq, Repr

namespace Field

/-- Embeds `Field::size()`: the number of elements. -/
def size (f : Field T) : Nat := f.data.length

/-- The `Field(exec, size, value)` constructor: a buffer of `size`
elements, every one equal to `value`. -/
def ofValue (exec : Executor) (n : Nat) (value : T) : Field T :=
  ⟨exec, List.replicate n value⟩

/-- Embeds `Field::copyToHost()`: a host-resident field with identical contents. -/
def copyToHost (f : Field T) : Field T :=
  ⟨Executor.serialExec, f.data⟩

end Field

/-- The error taxonomy of the spec relevant to the field algorithms:
`LengthMismatch` is raised by `NeoFOAM_ASSERT_EQUAL_LENGTH` when the two
buffers of a binary elementwise operation differ in size. -/
inductive FieldError where
  | lengthMismatch : FieldError
deriving DecidableEq, Repr

/-- Embeds `fill(a, value, interval)` from `src/unnamed/part_001` lines 34-52:
`start`/`end` default to `0`/`a.size()` and are overridden by the interval
when present; then a `parallelFor` over `[start, stop)` writes
`span[i] = value`.  The dispatch loop is embedded as a fold of single-index
writes (`List.set`) over the range; order across indices is irrelevant
because every index is written at most once. -/
def fill (a : Field T) (value : T)
    (interval : Option (Nat × Nat) := none) : Field T :=
  let start := match interval with | none => 0 | some p => p.1
  let stop := match interval with | none => a.size | some p => p.2
  ⟨a.exec, (List.range' start (stop - start)).foldl
      (fun d i => d.set i value) a.data⟩

/-- Embeds `setField(a, b)` from `src/unnamed/part_001` lines 55-61: a
`parallelFor` over the indices of `a` assigning `b[i]` to each element.
There is NO length check in the source.  A read `b[i]` with
`i ≥ b.size()` is out of bounds in C++ (undefined behaviour); the model
totalises that read with `default`, and no claim is evaluated there. -/
def setField [Inhabited T] (a : Field T) (b : List T) : Field T :=
  ⟨a.exec, (List.range a.size).map (fun i => b.getD i default)⟩

/-- Embeds `scalarMul(a, value)` from `src/unnamed/part_001` lines 63-70:
multiplies every element in place. -/
def scalarMul [Mul T] (a : Field T) (value : T) : Field T :=
  ⟨a.exec, a.data.map (fun x => x * value)⟩

/-- Embeds `detail::fieldBinaryOp(a, b, op)` from `src/unnamed/part_001` lines
74-86: first `NeoFOAM_ASSERT_EQUAL_LENGTH(a, b)` (the macro comes from
`helpers/exceptions.hpp`, which is not under `src/`; modelled from the
spec: it fails with `LengthMismatch` when the sizes differ, eagerly,
before the dispatch), then a `parallelFor` over `a` assigning
`op(spanA[i], spanB[i])`. -/
def fieldBinaryOp (a : Field T) (b : Field T) (op : T → T → T) :
    Except FieldError (Field T) :=
  if a.size = b.size then
    Except.ok ⟨a.exec, List.zipWith op a.data b.data⟩
  else
    Except.error FieldError.lengthMismatch

/-- Embeds `add(a, b)`: elementwise sum via `fieldBinaryOp` (lines 88-94). -/
def add [Add T] (a : Field T) (b : Field T) : Except FieldError (Field T) :=
  fieldBinaryOp a b (fun va vb => va + vb)

/-- Embeds `sub(a, b)`: elementwise difference via `fieldBinaryOp` (lines 97-103). -/
def sub [Sub T] (a : Field T) (b : Field T) : Except FieldError (Field T) :=
  fieldBinaryOp a b (fun va vb => va - vb)

/-- Embeds `mul(a, b)`: elementwise product via `fieldBinaryOp` (lines 105-111). -/
def mul [Mul T] (a : Field T) (b : Field T) : Except FieldError (Field T) :=
  fieldBinaryOp a b (fun va vb => va * vb)

/-- Embeds `equal(field, field2)` from `src/unnamed/part_001` lines 140-160 (the
copy in `fields/operations/Comparison.hpp` lines 25-45 is identical up to
spelling): copy both buffers to host, return `false` on a size mismatch,
otherwise compare elementwise with the scalar's native equality. -/
def equal [DecidableEq T] (field field2 : Field T) : Bool :=
  let hostSpan := field.copyToHost.data
  let hostSpan2 := field2.copyToHost.data
  if hostSpan.length ≠ hostSpan2.length then false
  else (hostSpan.zip hostSpan2).all (fun p => decide (p.1 = p.2))

namespace dsl

/-- Embeds `Operator::Type`: the term's category, fixed at construction. -/
inductive OperatorCategory where
  | Temporal : OperatorCategory
  | Implicit : OperatorCategory
  | Explicit : OperatorCategory
deriving DecidableEq, Repr

/-- Modelled from the spec: the `Operator` (Term) class of
`NeoFOAM/dsl/operator.hpp`, which is not under `src/`.  Per spec §3/§4.3:
a Term carries a fixed category `getType`, a scalar multiplier `coeff`
(`Coeff`), an owning `exec`, and a polymorphic evaluation capability
supplied by the registered concrete variant; `explicitOperation(acc)` adds
the term's contribution into `acc`, with the coefficient taking part in
that contribution.  `logic` is the variant's discretization logic, a
function of the current coefficient and the accumulator. -/
structure Operator where
  type : OperatorCategory
  coeff : scalar
  exec : Executor
  logic : scalar → Field scalar → Field scalar

namespace Operator

/-- Embeds `Operator::getType()`: the fixed category. -/
def getType (op : Operator) : OperatorCategory := op.type

/-- Embeds `Operator::explicitOperation(accumulator)`: adds this term's
contribution (its discretization logic at its current coefficient) into
the accumulator. -/
def explicitOperation (op : Operator) (acc : Field scalar) : Field scalar :=
  op.logic op.coeff acc

end Operator

/-- Modelled from the spec: `scale * term` (spec §4.3) returns a new Term
with `Coeff` multiplied by `scale`, same Type, same Executor, and the same
underlying discretization logic.  `Coeff(-1) * rhs` in
`expression.hpp:162` is the same operation at scale `-1`. -/
def scaleOperator (scale : scalar) (op : Operator) : Operator :=
  { op with coeff := scale * op.coeff }

/-- The `Expression` class of `dsl/expression.hpp`: an executor plus three
ordered sequences of Operators, one per category. -/
structure Expression where
  exec : Executor
  temporalOperators : List Operator
  implicitOperators : List Operator
  explicitOperators : List Operator

namespace Expression

/-- The `Expression(exec)` constructor: empty category sequences. -/
def mkEmpty (exec : Executor) : Expression := ⟨exec, [], [], []⟩

/-- Embeds `Expression::explicitOperation(Field& source)` (expression.hpp lines
34-41): a `for` loop over `explicitOperators_`, each operator's
`explicitOperation` applied to the accumulator in turn, returning the
mutated accumulator.  The sequential loop is a left fold. -/
def explicitOperation (e : Expression) (source : Field scalar) : Field scalar :=
  e.explicitOperators.foldl (fun acc op => op.explicitOperation acc) source

/-- Embeds `Expression::explicitOperation(size_t nCells)` (expression.hpp lines
27-31): allocates `Field(exec_, nCells, 0.0)` and delegates to the
accumulator overload. -/
def explicitOperationCells (e : Expression) (nCells : Nat) : Field scalar :=
  e.explicitOperation (Field.ofValue e.exec nCells 0)

/-- Embeds `Expression::addOperator` (expression.hpp lines 43-57): a switch on
`getType()` appending the operator to the matching sequence. -/
def addOperator (e : Expression) (op : Operator) : Expression :=
  match op.getType with
  | OperatorCategory.Temporal =>
      { e with temporalOperators := e.temporalOperators ++ [op] }
  | OperatorCategory.Implicit =>
      { e with implicitOperators := e.implicitOperators ++ [op] }
  | OperatorCategory.Explicit =>
      { e with explicitOperators := e.explicitOperators ++ [op] }

/-- Embeds `Expression::addExpression` (expression.hpp lines 59-73): appends each
of the other expression's three sequences onto the matching own sequence,
in order. -/
def addExpression (e : Expression) (equation : Expression) : Expression :=
  { e with
    temporalOperators := e.temporalOperators ++ equation.temporalOperators
    implicitOperators := e.implicitOperators ++ equation.implicitOperators
    explicitOperators := e.explicitOperators ++ equation.explicitOperators }

/-- Embeds `Expression::size()` (expression.hpp lines 77-80). -/
def size (e : Expression) : Nat :=
  e.temporalOperators.length + e.implicitOperators.length
    + e.explicitOperators.length

end Expression

/-- Embeds `operator+(Expression lhs, const Expression& rhs)` (expression.hpp
lines 108-112): the by-value left operand absorbs the right one. -/
def exprAddExpr (lhs : Expression) (rhs : Expression) : Expression :=
  lhs.addExpression rhs

/-- Embeds `operator+(Expression lhs, const Operator& rhs)` (lines 114-118). -/
def exprAddOp (lhs : Expression) (rhs : Operator) : Expression :=
  lhs.addOperator rhs

/-- Embeds `operator+(const Operator& lhs, const Operator& rhs)` (lines 120-126):
a fresh Expression on the left operand's executor holding both. -/
def opAddOp (lhs : Operator) (rhs : Operator) : Expression :=
  ((Expression.mkEmpty lhs.exec).addOperator lhs).addOperator rhs

/-- Embeds `operator*(scalar scale, const Expression& es)` (lines 128-144): a
fresh Expression on `es`'s executor, every operator of every category
re-inserted scaled, temporal then implicit then explicit. -/
def scalarMulExpr (scale : scalar) (es : Expression) : Expression :=
  es.explicitOperators.foldl
    (fun acc op => acc.addOperator (scaleOperator scale op))
    (es.implicitOperators.foldl
      (fun acc op => acc.addOperator (scaleOperator scale op))
      (es.temporalOperators.foldl
        (fun acc op => acc.addOperator (scaleOperator scale op))
        (Expression.mkEmpty es.exec)))

/-- Embeds `operator-(Expression lhs, const Expression& rhs)` (lines 146-150):
`lhs.addExpression(-1.0 * rhs)`. -/
def exprSubExpr (lhs : Expression) (rhs : Expression) : Expression :=
  lhs.addExpression (scalarMulExpr (-1) rhs)

/-- Embeds `operator-(Expression lhs, const Operator& rhs)` (lines 152-156):
`lhs.addOperator(-1.0 * rhs)`. -/
def exprSubOp (lhs : Expression) (rhs : Operator) : Expression :=
  lhs.addOperator (scaleOperator (-1) rhs)

/-- Embeds `operator-(const Operator& lhs, const Operator& rhs)` (lines 158-164):
a fresh Expression holding `lhs` and `Coeff(-1) * rhs`. -/
def opSubOp (lhs : Operator) (rhs : Operator) : Expression :=
  ((Expression.mkEmpty lhs.exec).addOperator lhs).addOperator
    (scaleOperator (-1) rhs)

end dsl

/-- Result type for the factory lookup of `registerClass.hpp`.  A
successful lookup yields an owning handle to the constructed object; an
unknown name reaches `NF_ERROR_EXIT` (from `core/error.hpp`, not under
`src/`; modelled from the spec: a fatal, process-terminating error), so
the trailing `return nullptr` of the macro is unreachable and the caller
never observes a null or fallback value. -/
inductive CreateResult (H : Type) where
  | handle : H → CreateResult H
  | fatalExit : String → CreateResult H
deriving DecidableEq, Repr

/-- Embeds `REGISTRY::classMap().at(name)` (registerClass.hpp line 43):
the registry map is a key-unique association list (uniqueness is enforced
by `BaseClassRegistry::registerClass`, lines 96-104, which throws on a
duplicate key); `at` finds the entry with the exactly matching key, or
fails, which the macro catches as `std::out_of_range`. -/
def classMapLookup {C : Type} (classMap : List (String × C)) (name : String) :
    Option C :=
  (classMap.find? (fun p => p.1 == name)).map Prod.snd

/-- Embeds the `create(name, args...)` factory of
`MAKE_CLASS_A_RUNTIME_FACTORY` (registerClass.hpp lines 38-54): look the
name up in the class map; on success call the registered constructor on
the arguments; on `std::out_of_range` build the message
`" Could not find constructor for " + name + "valid constructors are: "
+ to_string(classMap().size())` and fail fatally via `NF_ERROR_EXIT`. -/
def create {A H : Type} (classMap : List (String × (A → H))) (name : String)
    (args : A) : CreateResult H :=
  match classMapLookup classMap name with
  | some regCreate => CreateResult.handle (regCreate args)
  | none => CreateResult.fatalExit
      (" Could not find constructor for " ++ name
        ++ "valid constructors are: " ++ toString classMap.length)

/-- Sequential application of a list of operations, each one fully
completed before the next begins (the statement-side rendering of "in
insertion order, one term fully completed before the next"). -/
def seqApply {α : Type} : List (α → α) → α → α
  | [], x => x
  | f :: fs, x => seqApply fs (f x)

/-- The data-model invariant of spec §3: every Term sits in the category
sequence matching its fixed `getType`. -/
def dsl.Expression.wellFormed (e : dsl.Expression) : Prop :=
  (∀ op ∈ e.temporalOperators, op.getType = dsl.OperatorCategory.Temporal)
  ∧ (∀ op ∈ e.implicitOperators, op.getType = dsl.OperatorCategory.Implicit)
  ∧ (∀ op ∈ e.explicitOperators, op.getType = dsl.OperatorCategory.Explicit)

instance (e : dsl.Expression) : Decidable e.wellFormed := by
  unfold dsl.Expression.wellFormed; infer_instance

/-- A concrete operator used to evaluate theorems at witness inputs: its
discretization logic adds `coeff * contrib` to every accumulator element,
the shape of the explicit terms of the spec's §8 scenario. -/
def dsl.sampleOp (cat : dsl.OperatorCategory) (c : scalar) (contrib : scalar) :
    dsl.Operator :=
  ⟨cat, c, Executor.serialExec,
    fun coeff acc => ⟨acc.exec, acc.data.map (fun x => x + coeff * contrib)⟩⟩

/-- A concrete expression with one operator per category, used to evaluate
theorems at witness inputs. -/
def dsl.sampleExpr : dsl.Expression :=
  ⟨Executor.serialExec,
    [dsl.sampleOp dsl.OperatorCategory.Temporal 1 2],
    [dsl.sampleOp dsl.OperatorCategory.Implicit 1 4],
    [dsl.sampleOp dsl.OperatorCategory.Explicit 1 3]⟩

end NeoFOAM

namespace NeoFOAM

open dsl

/-- The sequential `for` loop over the explicit operators (a left fold)
is the in-order, one-at-a-time application of their operations. -/
lemma foldl_eq_seqApply (l : List Operator) (src : Field scalar) :
    l.foldl (fun acc op => op.explicitOperation acc) src
      = seqApply (l.map Operator.explicitOperation) src := by
  induction l generalizing src with
  | nil => rfl
  | cons op rest ih => simp [seqApply, ih]

/-- Claim C1: `Expression::explicitOperation(accumulator)` invokes exactly
the Explicit-category terms' `explicitOperation` on the accumulator, in
insertion order with each term completed before the next (the sequential
application `seqApply` of the explicit operators' operations); the result
does not depend on the temporal or implicit sequences, which stay
uninvoked; and the `nCells` overload first allocates a buffer of `nCells`
elements all equal to `0.0` and then behaves identically. -/
theorem claim_C1_explicit_operation (e : Expression) (src : Field scalar)
    (n : Nat) (tOps iOps : List Operator) :
    e.explicitOperation src
      = seqApply (e.explicitOperators.map Operator.explicitOperation) src
    ∧ Expression.explicitOperation ⟨e.exec, tOps, iOps, e.explicitOperators⟩ src
      = e.explicitOperation src
    ∧ e.explicitOperationCells n
      = e.explicitOperation ⟨e.exec, List.replicate n 0⟩ :=
  ⟨foldl_eq_seqApply e.explicitOperators src, rfl, rfl⟩

/-- Claim C2: each subtraction overload is defined as adding the negation
`-1 * rhs`: `e - e2`, `e - t` and `t - t2` are the very same Expressions
as `e + (-1 * e2)`, `e + (-1 * t)` and `t + (-1 * t2)`, and therefore
their explicit evaluations on an identical zero-initialized accumulator
of any length are identical. -/
theorem claim_C2_subtraction_is_added_negation (e e2 : Expression)
    (t t2 : Operator) (n : Nat) :
    exprSubExpr e e2 = exprAddExpr e (scalarMulExpr (-1) e2)
    ∧ exprSubOp e t = exprAddOp e (scaleOperator (-1) t)
    ∧ opSubOp t t2 = opAddOp t (scaleOperator (-1) t2)
    ∧ (exprSubExpr e e2).explicitOperationCells n
      = (exprAddExpr e (scalarMulExpr (-1) e2)).explicitOperationCells n
    ∧ (exprSubOp e t).explicitOperationCells n
      = (exprAddOp e (scaleOperator (-1) t)).explicitOperationCells n
    ∧ (opSubOp t t2).explicitOperationCells n
      = (opAddOp t (scaleOperator (-1) t2)).explicitOperationCells n :=
  ⟨rfl, rfl, rfl, rfl, rfl, rfl⟩

/-- Claim C3: `(e1 + e2).size() = e1.size() + e2.size()`; each category
sequence of the sum is the concatenation of the corresponding sequences
(so each category count is the sum of the category counts and relative
order is preserved within each category; `e2` enters only through its
sequences and, the model being pure, is left unmodified, matching the
`const&` right operand of the source); and `addOperator` appends a term
only to the sequence matching its `Type`, leaving the other two
categories unchanged. -/
theorem claim_C3_addition_sizes (e1 e2 : Expression) (e : Expression)
    (op : Operator) :
    (exprAddExpr e1 e2).size = e1.size + e2.size
    ∧ (exprAddExpr e1 e2).temporalOperators
      = e1.temporalOperators ++ e2.temporalOperators
    ∧ (exprAddExpr e1 e2).implicitOperators
      = e1.implicitOperators ++ e2.implicitOperators
    ∧ (exprAddExpr e1 e2).explicitOperators
      = e1.explicitOperators ++ e2.explicitOperators
    ∧ (e.addOperator op).temporalOperators
      = (if op.getType = OperatorCategory.Temporal
          then e.temporalOperators ++ [op] else e.temporalOperators)
    ∧ (e.addOperator op).implicitOperators
      = (if op.getType = OperatorCategory.Implicit
          then e.implicitOperators ++ [op] else e.implicitOperators)
    ∧ (e.addOperator op).explicitOperators
      = (if op.getType = OperatorCategory.Explicit
          then e.explicitOperators ++ [op] else e.explicitOperators)
    ∧ (e.addOperator op).size = e.size + 1 := by
  refine ⟨?_, rfl, rfl, rfl, ?_, ?_, ?_, ?_⟩
  · simp [exprAddExpr, Expression.addExpression, Expression.size]; omega
  all_goals
    rcases op with ⟨ty, c, ex, lg⟩
    cases ty <;>
      simp [Expression.addOperator, Operator.getType, Expression.size] <;>
      omega

/-- Appending one operator grows the total size by exactly one, whichever
category it lands in. -/
lemma addOperator_size (e : Expression) (op : Operator) :
    (e.addOperator op).size = e.size + 1 := by
  rcases op with ⟨ty, c, ex, lg⟩
  cases ty <;>
    simp [Expression.addOperator, Operator.getType, Expression.size] <;> omega

/-- The scaling loop over a list of operators grows the accumulator
expression by the list's length. -/
lemma foldl_scale_size (s : scalar) (l : List Operator) (acc : Expression) :
    (l.foldl (fun a op => a.addOperator (scaleOperator s op)) acc).size
      = acc.size + l.length := by
  induction l generalizing acc with
  | nil => simp
  | cons op rest ih =>
    simp only [List.foldl_cons, List.length_cons, ih, addOperator_size]
    omega

/-- The scaling loop over a list of Temporal operators appends their
scaled copies, in order, to the temporal sequence only. -/
lemma foldl_scale_temporal (s : scalar) (l : List Operator) (acc : Expression)
    (h : ∀ op ∈ l, op.getType = OperatorCategory.Temporal) :
    l.foldl (fun a op => a.addOperator (scaleOperator s op)) acc
      = { acc with temporalOperators :=
            acc.temporalOperators ++ l.map (scaleOperator s) } := by
  induction l generalizing acc with
  | nil => simp
  | cons op rest ih =>
    have hop : op.type = OperatorCategory.Temporal := h op (by simp)
    simp only [List.foldl_cons, List.map_cons]
    rw [ih _ (fun o ho => h o (by simp [ho]))]
    simp [Expression.addOperator, scaleOperator, Operator.getType, hop]

/-- The scaling loop over a list of Implicit operators appends their
scaled copies, in order, to the implicit sequence only. -/
lemma foldl_scale_implicit (s : scalar) (l : List Operator) (acc : Expression)
    (h : ∀ op ∈ l, op.getType = OperatorCategory.Implicit) :
    l.foldl (fun a op => a.addOperator (scaleOperator s op)) acc
      = { acc with implicitOperators :=
            acc.implicitOperators ++ l.map (scaleOperator s) } := by
  induction l generalizing acc with
  | nil => simp
  | cons op rest ih =>
    have hop : op.type = OperatorCategory.Implicit := h op (by simp)
    simp only [List.foldl_cons, List.map_cons]
    rw [ih _ (fun o ho => h o (by simp [ho]))]
    simp [Expression.addOperator, scaleOperator, Operator.getType, hop]

/-- The scaling loop over a list of Explicit operators appends their
scaled copies, in order, to the explicit sequence only. -/
lemma foldl_scale_explicit (s : scalar) (l : List Operator) (acc : Expression)
    (h : ∀ op ∈ l, op.getType = OperatorCategory.Explicit) :
    l.foldl (fun a op => a.addOperator (scaleOperator s op)) acc
      = { acc with explicitOperators :=
            acc.explicitOperators ++ l.map (scaleOperator s) } := by
  induction l generalizing acc with
  | nil => simp
  | cons op rest ih =>
    have hop : op.type = OperatorCategory.Explicit := h op (by simp)
    simp only [List.foldl_cons, List.map_cons]
    rw [ih _ (fun o ho => h o (by simp [ho]))]
    simp [Expression.addOperator, scaleOperator, Operator.getType, hop]

/-- Claim C4: `(s * e).size() = e.size()`; `s * term` keeps the term's
category, executor and discretization logic and multiplies its
coefficient by `s`; and (under the data-model invariant that every term
sits in the sequence of its own category) every category sequence of
`s * e` is the elementwise scaled copy of the corresponding sequence of
`e`.  The model being pure, `e` itself is unmodified, matching the
`const&` operand of the source. -/
theorem claim_C4_scalar_mul (s : scalar) (e : Expression) (op : Operator) :
    (scalarMulExpr s e).size = e.size
    ∧ (scaleOperator s op).getType = op.getType
    ∧ (scaleOperator s op).coeff = s * op.coeff
    ∧ (scaleOperator s op).exec = op.exec
    ∧ (scaleOperator s op).logic = op.logic
    ∧ (e.wellFormed →
        (scalarMulExpr s e).temporalOperators
          = e.temporalOperators.map (scaleOperator s)
        ∧ (scalarMulExpr s e).implicitOperators
          = e.implicitOperators.map (scaleOperator s)
        ∧ (scalarMulExpr s e).explicitOperators
          = e.explicitOperators.map (scaleOperator s)) := by
  refine ⟨?_, rfl, rfl, rfl, rfl, ?_⟩
  · simp only [scalarMulExpr, foldl_scale_size]
    simp [Expression.size, Expression.mkEmpty]
    try omega
  · rintro ⟨ht, hi, he⟩
    unfold scalarMulExpr
    refine ⟨?_, ?_, ?_⟩
    all_goals
      rw [foldl_scale_temporal s _ _ ht, foldl_scale_implicit s _ _ hi,
        foldl_scale_explicit s _ _ he]
      try simp [Expression.mkEmpty]

/-- Witness for claim C4 at the concrete sample expression with one
operator per category. -/
theorem claim_C4_scalar_mul_witness :
    (scalarMulExpr 2 sampleExpr).size = sampleExpr.size
    ∧ (scalarMulExpr 2 sampleExpr).temporalOperators
      = sampleExpr.temporalOperators.map (scaleOperator 2)
    ∧ (scalarMulExpr 2 sampleExpr).implicitOperators
      = sampleExpr.implicitOperators.map (scaleOperator 2)
    ∧ (scalarMulExpr 2 sampleExpr).explicitOperators
      = sampleExpr.explicitOperators.map (scaleOperator 2) :=
  ⟨(claim_C4_scalar_mul 2 sampleExpr (sampleOp OperatorCategory.Temporal 1 2)).1,
   ((claim_C4_scalar_mul 2 sampleExpr
      (sampleOp OperatorCategory.Temporal 1 2)).2.2.2.2.2 (by decide)).1,
   ((claim_C4_scalar_mul 2 sampleExpr
      (sampleOp OperatorCategory.Temporal 1 2)).2.2.2.2.2 (by decide)).2.1,
   ((claim_C4_scalar_mul 2 sampleExpr
      (sampleOp OperatorCategory.Temporal 1 2)).2.2.2.2.2 (by decide)).2.2⟩

/-- Claim C5, evaluation at the failing input: `setField` has no length
check.  With `a` of size 2 and `b` of size 3 it returns normally, copying
the first two elements of `b`, instead of failing with `LengthMismatch`
as the claim states; on matching lengths it does copy elementwise. -/
theorem claim_C5_setField_unchecked :
    setField (⟨Executor.serialExec, [1, 2]⟩ : Field scalar) [5, 6, 7]
      = ⟨Executor.serialExec, [5, 6]⟩
    ∧ setField (⟨Executor.serialExec, [1, 2]⟩ : Field scalar) [5, 6]
      = ⟨Executor.serialExec, [5, 6]⟩ := by
  exact ⟨by decide, by decide⟩

/-- Claim C6: `add`, `sub` and `mul` fail with `LengthMismatch` whenever
the sizes differ — eagerly, before the dispatch, so for every possible
elementwise body the result is the error and the destination buffer is
untouched — and on matching sizes produce the elementwise sum, difference
and product. -/
theorem claim_C6_binary_ops_length_check (a b : Field scalar) :
    (a.size ≠ b.size →
      add a b = Except.error FieldError.lengthMismatch
      ∧ sub a b = Except.error FieldError.lengthMismatch
      ∧ mul a b = Except.error FieldError.lengthMismatch
      ∧ ∀ op : scalar → scalar → scalar,
          fieldBinaryOp a b op = Except.error FieldError.lengthMismatch)
    ∧ (a.size = b.size →
      add a b
        = Except.ok ⟨a.exec, List.zipWith (fun x y => x + y) a.data b.data⟩
      ∧ sub a b
        = Except.ok ⟨a.exec, List.zipWith (fun x y => x - y) a.data b.data⟩
      ∧ mul a b
        = Except.ok ⟨a.exec, List.zipWith (fun x y => x * y) a.data b.data⟩) := by
  constructor
  · intro h
    refine ⟨?_, ?_, ?_, fun op => ?_⟩ <;> simp [add, sub, mul, fieldBinaryOp, h]
  · intro h
    refine ⟨?_, ?_, ?_⟩ <;> simp [add, sub, mul, fieldBinaryOp, h]

/-- Witness for claim C6: a mismatched pair fails with `LengthMismatch`, a
matched pair is combined elementwise. -/
theorem claim_C6_binary_ops_length_check_witness :
    add (⟨Executor.serialExec, [1, 2]⟩ : Field scalar)
        ⟨Executor.serialExec, [3]⟩
      = Except.error FieldError.lengthMismatch
    ∧ add (⟨Executor.serialExec, [1, 2]⟩ : Field scalar)
        ⟨Executor.serialExec, [3, 4]⟩
      = Except.ok ⟨Executor.serialExec,
          List.zipWith (fun x y => x + y) [1, 2] [3, 4]⟩ :=
  ⟨((claim_C6_binary_ops_length_check ⟨Executor.serialExec, [1, 2]⟩
      ⟨Executor.serialExec, [3]⟩).1 (by decide)).1,
   ((claim_C6_binary_ops_length_check ⟨Executor.serialExec, [1, 2]⟩
      ⟨Executor.serialExec, [3, 4]⟩).2 (by decide)).1⟩

/-- Claim C7: the factory lookup `create(name, args...)` returns the
handle built by the registered constructor when the name is found, and
when the name is not registered it terminates fatally with the message
naming the requested name and the count of registered alternatives; no
null or fallback value reaches the caller (the `return nullptr` after
`NF_ERROR_EXIT` is unreachable). -/
theorem claim_C7_factory_create {A H : Type}
    (classMap : List (String × (A → H))) (name : String) (args : A) :
    (∀ regCreate, classMapLookup classMap name = some regCreate →
        create classMap name args = CreateResult.handle (regCreate args))
    ∧ (classMapLookup classMap name = none →
        create classMap name args = CreateResult.fatalExit
          (" Could not find constructor for " ++ name
            ++ "valid constructors are: " ++ toString classMap.length)) := by
  constructor
  · intro regCreate hf
    simp [create, hf]
  · intro h
    simp [create, h]

/-- Witness for claim C7 on a one-entry registry: the registered name
yields the registered constructor's handle, an unknown name yields the
fatal message carrying the name and the registry size. -/
theorem claim_C7_factory_create_witness :
    create [("Runge-Kutta", fun _ : Unit => "rk")] "Runge-Kutta" ()
      = CreateResult.handle "rk"
    ∧ create [("Runge-Kutta", fun _ : Unit => "rk")] "missing" ()
      = CreateResult.fatalExit
          " Could not find constructor for missingvalid constructors are: 1" := by
  constructor
  · exact (claim_C7_factory_create
        [("Runge-Kutta", fun _ : Unit => "rk")] "Runge-Kutta" ()).1
      (fun _ => "rk") rfl
  · have h := (claim_C7_factory_create
        [("Runge-Kutta", fun _ : Unit => "rk")] "missing" ()).2 rfl
    rw [h]
    decide

/-- An elementwise all-equal scan of two zipped equal-length lists is list
equality. -/
lemma all_zip_eq {T : Type} [DecidableEq T] (l1 l2 : List T)
    (h : l1.length = l2.length) :
    (((l1.zip l2).all fun p => decide (p.1 = p.2)) = true) ↔ l1 = l2 := by
  induction l1 generalizing l2 with
  | nil =>
    cases l2 with
    | nil => simp
    | cons y ys => simp at h
  | cons x xs ih =>
    cases l2 with
    | nil => simp at h
    | cons y ys =>
      simp only [List.length_cons, Nat.succ.injEq] at h
      simp [ih ys h]

/-- Claim C9: `equal(field, field2)` copies both buffers to host (the
copies carry identical contents); on a size mismatch it returns `false`
normally — a total Boolean result for every pair of contents, with no
`LengthMismatch` and no abort — and on matching sizes it returns `true`
exactly when every pair of corresponding elements is equal under the
scalar's native equality. -/
theorem claim_C9_equal_mismatch_false (field field2 : Field scalar) :
    field.copyToHost.data = field.data
    ∧ (field.size ≠ field2.size → equal field field2 = false)
    ∧ (field.size = field2.size →
        (equal field field2 = true ↔ field.data = field2.data)) := by
  refine ⟨rfl, ?_, ?_⟩
  · intro h
    simp only [Field.size] at h
    simp [equal, Field.copyToHost, h]
  · intro h
    simp only [Field.size] at h
    simp [equal, Field.copyToHost, h, all_zip_eq _ _ h]

/-- Witness for claim C9: a size-2/size-1 pair compares `false`, an
identical size-2 pair compares `true`. -/
theorem claim_C9_equal_mismatch_false_witness :
    equal (⟨Executor.serialExec, [1, 2]⟩ : Field scalar)
      ⟨Executor.serialExec, [1]⟩ = false
    ∧ equal (⟨Executor.serialExec, [1, 2]⟩ : Field scalar)
      ⟨Executor.serialExec, [1, 2]⟩ = true :=
  ⟨(claim_C9_equal_mismatch_false ⟨Executor.serialExec, [1, 2]⟩
      ⟨Executor.serialExec, [1]⟩).2.1 (by decide),
   ((claim_C9_equal_mismatch_false ⟨Executor.serialExec, [1, 2]⟩
      ⟨Executor.serialExec, [1, 2]⟩).2.2 (by decide)).mpr (by decide)⟩

/-- Reading an updated list at an in-bounds index: the written index holds
the new value, every other index is unchanged. -/
lemma getD_set {α : Type} (l : List α) (j i : Nat) (v d : α)
    (hi : i < l.length) :
    (l.set j v).getD i d = if i = j then v else l.getD i d := by
  rw [List.getD_eq_getElem _ _ (by simpa using hi),
    List.getD_eq_getElem _ _ hi]
  by_cases hij : i = j
  · subst hij
    simp [List.getElem_set]
  · have hji : ¬j = i := fun hh => hij (Eq.symm hh)
    simp [List.getElem_set, hij, hji]

/-- The write loop of `fill` preserves the buffer length. -/
lemma fill_loop_length {α : Type} (v : α) (r : List Nat) (data : List α) :
    (r.foldl (fun dd j => dd.set j v) data).length = data.length := by
  induction r generalizing data with
  | nil => rfl
  | cons j rest ih => simp [ih]

/-- The write loop of `fill` over `[s, s+n)` writes `v` at exactly the
in-range indices and leaves every other in-bounds index unchanged. -/
lemma fill_loop_getD {α : Type} (v d : α) :
    ∀ (n s : Nat) (data : List α) (i : Nat), i < data.length →
      ((List.range' s n).foldl (fun dd j => dd.set j v) data).getD i d
        = if s ≤ i ∧ i < s + n then v else data.getD i d := by
  intro n
  induction n with
  | zero =>
    intro s data i _
    simp only [List.range', List.foldl_nil]
    rw [if_neg (by omega)]
  | succ m ih =>
    intro s data i hi
    rw [List.range'_succ]
    simp only [List.foldl_cons]
    rw [ih (s + 1) (data.set s v) i (by simpa using hi)]
    by_cases h1 : s + 1 ≤ i ∧ i < s + 1 + m
    · rw [if_pos h1, if_pos (by omega)]
    · rw [if_neg h1, getD_set data s i v d hi]
      by_cases h2 : i = s
      · subst h2
        rw [if_pos rfl, if_pos (by omega)]
      · rw [if_neg h2, if_neg (by omega)]

/-- Claim C10: for an interval `[start, stop)` with `stop ≤ a.size()`,
`fill(a, v, {start, stop})` keeps the size and writes `v` to exactly the
indices in the interval, leaving every element outside it unchanged. -/
theorem claim_C10_fill_frame (a : Field scalar) (v : scalar)
    (start stop : Nat) (h : stop ≤ a.size) (i : Nat) (hi : i < a.size) :
    (fill a v (some (start, stop))).size = a.size
    ∧ (fill a v (some (start, stop))).data.getD i 0
      = if start ≤ i ∧ i < stop then v else a.data.getD i 0 := by
  constructor
  · simp [fill, Field.size, fill_loop_length]
  · show ((List.range' start (stop - start)).foldl
        (fun dd j => dd.set j v) a.data).getD i 0 = _
    rw [fill_loop_getD v 0 (stop - start) start a.data i hi]
    by_cases hc : start ≤ i ∧ i < start + (stop - start)
    · rw [if_pos hc, if_pos (by omega)]
    · rw [if_neg hc, if_neg (by omega)]

/-- Witness for claim C10 on a length-4 buffer filled with `9` over
`[1, 3)`: the size stays 4, index 2 reads `9`, index 3 keeps its old
value `4`. -/
theorem claim_C10_fill_frame_witness :
    (fill (⟨Executor.serialExec, [1, 2, 3, 4]⟩ : Field scalar) 9
        (some (1, 3))).size = 4
    ∧ (fill (⟨Executor.serialExec, [1, 2, 3, 4]⟩ : Field scalar) 9
        (some (1, 3))).data.getD 2 0 = 9
    ∧ (fill (⟨Executor.serialExec, [1, 2, 3, 4]⟩ : Field scalar) 9
        (some (1, 3))).data.getD 3 0 = 4 := by
  refine ⟨?_, ?_, ?_⟩
  · exact (claim_C10_fill_frame ⟨Executor.serialExec, [1, 2, 3, 4]⟩ 9 1 3
      (by decide) 2 (by decide)).1
  · have h := (claim_C10_fill_frame ⟨Executor.serialExec, [1, 2, 3, 4]⟩ 9 1 3
      (by decide) 2 (by decide)).2
    rw [if_pos (by decide)] at h
    exact h
  · have h := (claim_C10_fill_frame ⟨Executor.serialExec, [1, 2, 3, 4]⟩ 9 1 3
      (by decide) 3 (by decide)).2
    rw [if_neg (by decide)] at h
    exact h.trans (by decide)

end NeoFOAM
